import Mathlib

/-!
# Verification of `pkg/controller/ingress/types.go` (voyager)

A shallow embedding of the annotation accessors, the load-balancer image
variable and `fullyQualifiedNodeName`, followed by theorems about them.

Modelling conventions

* A Go `string` is a Lean `String` (a sequence of Unicode scalar values), so
  only valid UTF-8 strings are covered.  Positions are counted in characters
  instead of bytes; every position the code computes is the position of the
  ASCII character `.`, so slicing at it selects the same substring.
* A Go `map[string]string` is an association list read with `List.lookup`.
  Every Go map (the nil map included, which reads like the empty map) is such a
  list, and the theorems hold for all lists.
* Library functions of Go (`strings.ToLower`, `strings.Index`,
  `strings.TrimSpace`, `sync.Once`) are modelled from their documentation.
-/

namespace ingress

/-! ## Constants (types.go, lines 17-44) -/

def ServicePrefix : String := "lb-svc-"
def ControllerPrefix : String := "lb-c-"
def DaemonSetPrefix : String := "lb-dm-"
def ConfigMapPrefix : String := "lb-cm-"

def stickySession : String := "ingress.appscode.com/stickySession"

def StatPort : Nat := 1936
def StatsOn : String := "ingress.appscode.com/stats"
def StatsUser : String := "ingress.appscode.com/stats.user"
def StatsPassword : String := "ingress.appscode.com/stats.password"

def LBName : String := "ingress.appscode.com/name"
def LBType : String := "ingress.appscode.com/type"
def LBDaemon : String := "Daemon"
def LBLoadBalancer : String := "LoadBalancer"

def DaemonHostname : String := "ingress.appscode.com/daemon.hostname"

def LoadBalancerIP : String := "ingress.appscode.com/ip"
def LoadBalancerPersist : String := "ingress.appscode.com/loadbalancer.persist"

/-! ## Go library functions used by the accessors -/

/-- Go `unicode.ToLower` on one rune.  On ASCII it shifts `A`..`Z` by 32 and
leaves every other rune unchanged.  Outside ASCII it follows the Unicode case
table, which is not part of the repository and is the parameter `tbl`. -/
def unicodeToLower (tbl : Char → Char) (r : Char) : Char :=
  if r.toNat < 128 then
    (if 65 ≤ r.toNat ∧ r.toNat ≤ 90 then Char.ofNat (r.toNat + 32) else r)
  else tbl r

/-- Go `strings.ToLower`: every rune mapped to its lower case. -/
def stringsToLower (tbl : Char → Char) (s : String) : String :=
  String.mk (s.data.map (unicodeToLower tbl))

/-! ## The annotation type and its accessors (types.go, lines 46-88) -/

/-- The type `annotation map[string]string`. -/
abbrev annotation := List (String × String)

/-- Go's two-value map index `v, ok := s[k]`: the stored value and `true`
when `k` is present, the zero value `""` and `false` when it is not. -/
def annotation.index (s : annotation) (k : String) : String × Bool :=
  match s.lookup k with
  | some v => (v, true)
  | none => ("", false)

/-- Go's map assignment `s[k] = v`. -/
def annotation.assign (s : annotation) (k v : String) : annotation :=
  (k, v) :: s.filter (fun p => p.1 != k)

/-- Go's `delete(s, k)`. -/
def annotation.delete (s : annotation) (k : String) : annotation :=
  s.filter (fun p => p.1 != k)

def annotation.StickySession (s : annotation) : Bool :=
  let (_, ok) := s.index ingress.stickySession
  ok

def annotation.Stats (s : annotation) : Bool :=
  let (_, ok) := s.index ingress.StatsOn
  ok

def annotation.StatsUser (s : annotation) : String :=
  let (v, _) := s.index ingress.StatsUser
  v

def annotation.StatsPassword (s : annotation) : String :=
  let (v, _) := s.index ingress.StatsPassword
  v

def annotation.LBType (s : annotation) : String :=
  let (v, ok) := s.index ingress.LBType
  if ok then v else ingress.LBLoadBalancer

def annotation.DaemonHostname (s : annotation) : String :=
  let (v, _) := s.index ingress.DaemonHostname
  v

def annotation.LoadBalancerIP (s : annotation) : String :=
  let (v, _) := s.index ingress.LoadBalancerIP
  v

def annotation.LoadBalancerPersist (tbl : Char → Char) (s : annotation) : Bool :=
  let (v, _) := s.index ingress.LoadBalancerPersist
  stringsToLower tbl v == "true"

/-- The sixteen spellings of `true` in upper and lower case letters. -/
def trueVariants : List String :=
  ["true", "truE", "trUe", "trUE", "tRue", "tRuE", "tRUe", "tRUE",
   "True", "TruE", "TrUe", "TrUE", "TRue", "TRuE", "TRUe", "TRUE"]

/-- A stand-in for the non-ASCII part of the Unicode lower-case table: the two
non-ASCII runes with an ASCII lower case, U+0130 and U+212A, and the
Latin-1 capital U+00C9 are mapped, everything else is left unchanged. -/
def sampleTable (c : Char) : Char :=
  if c.toNat = 0x130 then 'i'
  else if c.toNat = 0x212A then 'k'
  else if c.toNat = 0xC9 then Char.ofNat 0xE9
  else c

/-! ## The load-balancer image variable (types.go, lines 188-204) -/

/-- The package-level variables of the file: `var loadbalancerImage string`. -/
structure Globals where
  loadbalancerImage : String
deriving DecidableEq, Repr

/-- The state at process start: a Go `string` variable starts as `""`. -/
def initialGlobals : Globals := { loadbalancerImage := "" }

/-- Go `sync.Once`: a flag recording whether `Do` has run on this value. -/
structure Once where
  done : Bool
deriving DecidableEq, Repr

/-- The zero value of `sync.Once`, which `var once sync.Once` declares. -/
def Once.zero : Once := { done := false }

/-- Go `once.Do(f)`: `f` runs if and only if `Do` is called for the first time
on this `Once`.  Returns the updated `Once` and the state after the call. -/
def Once.Do {σ : Type} (o : Once) (f : σ → σ) (st : σ) : Once × σ :=
  if o.done then (o, st) else ({ done := true }, f st)

/-- The function `SetLoadbalancerImage`: `once` is a local variable, declared
anew in every call. -/
def SetLoadbalancerImage (i : String) (g : Globals) : Globals :=
  let once : Once := Once.zero
  (once.Do (fun g => { g with loadbalancerImage := i }) g).2

def GetLoadbalancerImage (g : Globals) : String :=
  g.loadbalancerImage

/-- The calls `SetLoadbalancerImage(v1)`, ..., `SetLoadbalancerImage(vn)` made
one after the other. -/
def setLoadbalancerImages (vs : List String) (g : Globals) : Globals :=
  vs.foldl (fun st v => SetLoadbalancerImage v st) g

/-! ## Go library functions used by `fullyQualifiedNodeName` -/

/-- Search loop of `strings.Index`: the position of the first suffix of the
text that starts with `substr`, counted from `i`, or `-1`. -/
def indexFrom (substr : List Char) : List Char → Nat → Int
  | [], i => if substr.isPrefixOf [] then (i : Int) else -1
  | c :: cs, i => if substr.isPrefixOf (c :: cs) then (i : Int) else indexFrom substr cs (i + 1)

/-- Go `strings.Index(s, substr)`: the index of the first instance of `substr`
in `s`, or `-1` if `substr` is not present in `s`. -/
def stringsIndex (s substr : String) : Int :=
  indexFrom substr.data s.data 0

/-- Go slice expression `s[0:hi]`. -/
def sliceTo (s : String) (hi : Int) : String :=
  String.mk (s.data.take hi.toNat)

/-- Go slice expression `s[lo:]`. -/
def sliceFrom (s : String) (lo : Int) : String :=
  String.mk (s.data.drop lo.toNat)

/-- Go `unicode.IsSpace`: the Latin-1 spaces `\t \n \v \f \r`, space, U+0085
and U+00A0, and the runes with the Unicode White_Space property. -/
def unicodeIsSpace (r : Char) : Bool :=
  decide (r.toNat ∈ [0x09, 0x0A, 0x0B, 0x0C, 0x0D, 0x20, 0x85, 0xA0, 0x1680,
      0x2028, 0x2029, 0x202F, 0x205F, 0x3000])
    || (decide (0x2000 ≤ r.toNat) && decide (r.toNat ≤ 0x200A))

/-- Go `strings.TrimSpace`: all leading and trailing white space removed. -/
def stringsTrimSpace (s : String) : String :=
  String.mk ((s.data.dropWhile unicodeIsSpace).reverse.dropWhile unicodeIsSpace).reverse

/-! ## `fullyQualifiedNodeName` (types.go, lines 206-223) -/

/-- What `exec.Command("hostname", "-f").Output()` returned: the captured
standard output and the error, `none` standing for `nil`. -/
structure CmdOutput (ε : Type) where
  name : String
  err : Option ε

/-- The function `fullyQualifiedNodeName`, with the outcome of the external
command as an argument.  The result is the Go pair `(string, error)`.  The
call of `log.Debugln` does not affect the result and is left out. -/
def fullyQualifiedNodeName {ε : Type} (cmd : CmdOutput ε) (nodeName : String) :
    String × Option ε :=
  let idx := stringsIndex nodeName "."
  let nodeName := if idx ≥ 0 then sliceTo nodeName idx else nodeName
  match cmd.err with
  | some err => ("", some err)
  | none =>
    let fqdn := stringsTrimSpace cmd.name
    let firstDotIndex := stringsIndex fqdn "."
    if firstDotIndex ≥ 0 then (nodeName ++ sliceFrom fqdn firstDotIndex, none)
    else (nodeName, none)

/-! ## Notions of the specification -/

/-- The short node name in the words of the specification: the part of `n`
before its first `.`, all of `n` when it has none. -/
def specShortName (n : String) : String :=
  String.mk (n.data.takeWhile (fun c => c != '.'))

/-- The domain suffix in the words of the specification: the substring of `f`
that starts at the first `.` of `f`. -/
def specDomainSuffix (f : String) : String :=
  String.mk (f.data.dropWhile (fun c => c != '.'))

/-! ## Callers of the load-balancer image functions -/

/-- One call of the package made by some caller: `SetLoadbalancerImage(v)` or
`GetLoadbalancerImage()`. -/
inductive Call where
  | set (v : String)
  | get
deriving DecidableEq, Repr

/-- One call run to completion on the package state: the state after it and,
for a `get`, the value it returned. -/
def Call.run : Call → Globals → Globals × Option String
  | Call.set v, g => (SetLoadbalancerImage v g, none)
  | Call.get, g => (g, some (GetLoadbalancerImage g))

/-- A schedule is the order in which the calls of all callers complete.  The
result is the final state and the values the `get` calls returned, in order. -/
def runSchedule : List Call → Globals → Globals × List String
  | [], g => (g, [])
  | c :: cs, g =>
    let (g1, r) := c.run g
    let (g2, obs) := runSchedule cs g1
    (g2, r.toList ++ obs)

/-- The number of calls in a schedule that changed the stored value. -/
def writesInEffect : List Call → Globals → Nat
  | [], _ => 0
  | c :: cs, g =>
    (if (c.run g).1 = g then 0 else 1) + writesInEffect cs (c.run g).1

/-! ## Lemmas on the library models -/

theorem unicodeToLower_ascii (tbl : Char → Char) (c : Char) (h : c.toNat < 128) :
    unicodeToLower tbl c = unicodeToLower id c := by
  simp [unicodeToLower, h]

theorem unicodeToLower_ascii_table :
    ∀ n : Fin 128, ∀ x ∈ ['t', 'r', 'u', 'e'],
      unicodeToLower id (Char.ofNat n) = x ↔ (n.val = x.toNat ∨ n.val + 32 = x.toNat) := by
  decide

theorem unicodeToLower_eq_iff (tbl : Char → Char)
    (htbl : ∀ c : Char, 128 ≤ c.toNat → tbl c ∉ ['t', 'r', 'u', 'e'])
    (x : Char) (hx : x ∈ ['t', 'r', 'u', 'e']) (c : Char) :
    unicodeToLower tbl c = x ↔ (c = x ∨ c.toNat + 32 = x.toNat) := by
  by_cases h : c.toNat < 128
  · rw [unicodeToLower_ascii tbl c h]
    have key := unicodeToLower_ascii_table ⟨c.toNat, h⟩ x hx
    simp only [Char.ofNat_toNat] at key
    rw [key]
    constructor
    · rintro (h1 | h1)
      · left
        rw [← Char.ofNat_toNat c, h1, Char.ofNat_toNat]
      · right; exact h1
    · rintro (h1 | h1)
      · left; rw [h1]
      · right; exact h1
  · have h128 : 128 ≤ c.toNat := Nat.le_of_not_lt h
    have hne : tbl c ≠ x := fun e => htbl c h128 (e ▸ hx)
    have hlow : unicodeToLower tbl c = tbl c := by simp [unicodeToLower, h]
    rw [hlow]
    constructor
    · intro e; exact absurd e hne
    · rintro (h1 | h1)
      · exfalso
        subst h1
        revert h128
        revert hx
        simp only [List.mem_cons, List.mem_singleton, List.not_mem_nil, or_false]
        rintro (rfl | rfl | rfl | rfl) <;> decide
      · exfalso
        have : x.toNat < 128 := by
          revert hx
          simp only [List.mem_cons, List.mem_singleton, List.not_mem_nil, or_false]
          rintro (rfl | rfl | rfl | rfl) <;> decide
        omega

theorem toNat_add_32 (c : Char) (n : Nat) (h : c.toNat + 32 = n + 32) : c = Char.ofNat n := by
  have : c.toNat = n := by omega
  rw [← this, Char.ofNat_toNat]

theorem stringsToLower_eq_true_iff (tbl : Char → Char)
    (htbl : ∀ c : Char, 128 ≤ c.toNat → tbl c ∉ ['t', 'r', 'u', 'e']) (v : String) :
    stringsToLower tbl v = "true" ↔ v ∈ trueVariants := by
  constructor
  · intro h
    obtain ⟨l⟩ := v
    have hl : l.map (unicodeToLower tbl) = ['t', 'r', 'u', 'e'] := by
      have := congrArg String.data h
      simpa [stringsToLower] using this
    rcases l with _ | ⟨a, _ | ⟨b, _ | ⟨c, _ | ⟨d, _ | ⟨e, l⟩⟩⟩⟩⟩ <;>
      simp only [List.map, List.cons.injEq, and_true, reduceCtorEq, and_false] at hl
    obtain ⟨ha, hb, hc, hd⟩ := hl
    rw [unicodeToLower_eq_iff tbl htbl _ (by decide)] at ha hb hc hd
    have ha2 : a = 't' ∨ a = 'T' := ha.imp id (fun h => toNat_add_32 a 84 h)
    have hb2 : b = 'r' ∨ b = 'R' := hb.imp id (fun h => toNat_add_32 b 82 h)
    have hc2 : c = 'u' ∨ c = 'U' := hc.imp id (fun h => toNat_add_32 c 85 h)
    have hd2 : d = 'e' ∨ d = 'E' := hd.imp id (fun h => toNat_add_32 d 69 h)
    rcases ha2 with rfl | rfl <;> rcases hb2 with rfl | rfl <;>
      rcases hc2 with rfl | rfl <;> rcases hd2 with rfl | rfl <;> decide
  · intro h
    simp only [trueVariants, List.mem_cons, List.mem_singleton, List.not_mem_nil, or_false] at h
    rcases h with rfl | rfl | rfl | rfl | rfl | rfl | rfl | rfl | rfl | rfl | rfl | rfl | rfl |
      rfl | rfl | rfl <;> rfl

theorem sampleTable_spec :
    ∀ c : Char, 128 ≤ c.toNat → sampleTable c ∉ ['t', 'r', 'u', 'e'] := by
  intro c hc
  unfold sampleTable
  split_ifs
  · decide
  · decide
  · decide
  · intro hmem
    simp only [List.mem_cons, List.mem_singleton, List.not_mem_nil, or_false] at hmem
    rcases hmem with rfl | rfl | rfl | rfl <;> revert hc <;> decide

/-! ## Lemmas on the map model -/

theorem index_of_some (m : annotation) (k v : String) (h : m.lookup k = some v) :
    m.index k = (v, true) := by
  simp [ annotation.index, h]

theorem index_of_none (m : annotation) (k : String) (h : m.lookup k = none) :
    m.index k = ("", false) := by
  simp [ annotation.index, h]

theorem index_congr (m1 m2 : annotation) (k : String) (h : m1.lookup k = m2.lookup k) :
    m1.index k = m2.index k := by
  simp [ annotation.index, h]

theorem lookup_delete_ne (m : annotation) (k k' : String) (h : k' ≠ k) :
    (m.delete k').lookup k = m.lookup k := by
  induction m with
  | nil => rfl
  | cons p t ih =>
    obtain ⟨a, b⟩ := p
    unfold annotation.delete at ih ⊢
    by_cases hak : a = k'
    · subst hak
      have hka : (k == a) = false := by simpa using fun e : k = a => h e.symm
      simp [List.filter_cons, List.lookup_cons, hka, ih]
    · by_cases hk : k = a
      · subst hk
        simp [List.filter_cons, List.lookup_cons, hak]
      · have hka : (k == a) = false := by simpa using hk
        simp [List.filter_cons, List.lookup_cons, hak, hka, ih]

theorem lookup_assign_ne (m : annotation) (k k' v : String) (h : k' ≠ k) :
    (m.assign k' v).lookup k = m.lookup k := by
  have hk : (k == k') = false := by simpa using fun e : k = k' => h e.symm
  have := lookup_delete_ne m k k' h
  unfold annotation.delete at this
  simp [ annotation.assign, List.lookup_cons, hk, this]

/-! ## Theorems on the annotation accessors -/

/-- C1: given that the Unicode table sends no non-ASCII rune to `t`, `r`, `u`
or `e`, `LoadBalancerPersist` is true exactly when the key
`ingress.appscode.com/loadbalancer.persist` is present with one of the sixteen
upper/lower-case spellings of `true`; it is false for an absent key; the
values `True` and `TRUE` give true and `yes`, `1`, the empty string and
` true` give false. -/
theorem LoadBalancerPersist_iff_case_insensitive_true (tbl : Char → Char)
    (htbl : ∀ c : Char, 128 ≤ c.toNat → tbl c ∉ ['t', 'r', 'u', 'e']) :
    (∀ m : annotation, m.LoadBalancerPersist tbl = true ↔
      ∃ v, m.lookup "ingress.appscode.com/loadbalancer.persist" = some v ∧ v ∈ trueVariants)
    ∧ (∀ m : annotation, m.lookup "ingress.appscode.com/loadbalancer.persist" = none →
        m.LoadBalancerPersist tbl = false)
    ∧ (∀ m : annotation, ∀ v ∈ ["True", "TRUE"],
        m.lookup "ingress.appscode.com/loadbalancer.persist" = some v →
        m.LoadBalancerPersist tbl = true)
    ∧ (∀ m : annotation, ∀ v ∈ ["yes", "1", "", " true"],
        m.lookup "ingress.appscode.com/loadbalancer.persist" = some v →
        m.LoadBalancerPersist tbl = false) := by
  have main : ∀ m : annotation, m.LoadBalancerPersist tbl = true ↔
      ∃ v, m.lookup "ingress.appscode.com/loadbalancer.persist" = some v ∧ v ∈ trueVariants := by
    intro m
    cases hm : m.lookup "ingress.appscode.com/loadbalancer.persist" with
    | none =>
      have hi := index_of_none m ingress.LoadBalancerPersist hm
      simp only [ annotation.LoadBalancerPersist, hi]
      constructor
      · intro h
        rw [show stringsToLower tbl "" = "" from rfl] at h
        exact absurd h (by decide)
      · rintro ⟨v, hv, _⟩; exact absurd hv (by simp)
    | some w =>
      have hi := index_of_some m ingress.LoadBalancerPersist w hm
      simp only [ annotation.LoadBalancerPersist, hi, beq_iff_eq,
        stringsToLower_eq_true_iff tbl htbl]
      constructor
      · intro h; exact ⟨w, rfl, h⟩
      · rintro ⟨v, hv, hmem⟩
        cases hv
        exact hmem
  refine ⟨main, ?_, ?_, ?_⟩
  · intro m hm
    cases hb : m.LoadBalancerPersist tbl with
    | false => rfl
    | true =>
      obtain ⟨v, hv, _⟩ := (main m).mp hb
      rw [hm] at hv
      exact absurd hv (by simp)
  · intro m v hv hm
    exact (main m).mpr ⟨v, hm, by
      revert hv
      simp only [List.mem_cons, List.mem_singleton, List.not_mem_nil, or_false]
      rintro (rfl | rfl) <;> decide⟩
  · intro m v hv hm
    cases hb : m.LoadBalancerPersist tbl with
    | false => rfl
    | true =>
      obtain ⟨w, hw, hmem⟩ := (main m).mp hb
      rw [hm] at hw
      cases hw
      revert hmem
      revert hv
      simp only [List.mem_cons, List.mem_singleton, List.not_mem_nil, or_false]
      rintro (rfl | rfl | rfl | rfl) <;> decide

theorem LoadBalancerPersist_iff_case_insensitive_true_witness :
    (∀ c : Char, 128 ≤ c.toNat → sampleTable c ∉ ['t', 'r', 'u', 'e'])
    ∧ annotation.LoadBalancerPersist sampleTable
        [("ingress.appscode.com/loadbalancer.persist", "tRuE")] = true
    ∧ annotation.LoadBalancerPersist sampleTable
        [("ingress.appscode.com/loadbalancer.persist", "yes")] = false :=
  ⟨sampleTable_spec,
   ((LoadBalancerPersist_iff_case_insensitive_true sampleTable sampleTable_spec).1 _).mpr
     ⟨"tRuE", by decide, by decide⟩,
   (LoadBalancerPersist_iff_case_insensitive_true sampleTable sampleTable_spec).2.2.2 _ "yes"
     (by decide) (by decide)⟩

/-- C4: `LBType` returns the value stored under `ingress.appscode.com/type`
unchanged whenever the key is present and `LoadBalancer` whenever it is absent;
the empty mapping gives `LoadBalancer` and the value `Daemon` gives `Daemon`. -/
theorem LBType_value_or_default (m : annotation) :
    (∀ v : String, m.lookup "ingress.appscode.com/type" = some v → m.LBType = v)
    ∧ (m.lookup "ingress.appscode.com/type" = none → m.LBType = "LoadBalancer")
    ∧ annotation.LBType [] = "LoadBalancer"
    ∧ (m.lookup "ingress.appscode.com/type" = some "Daemon" → m.LBType = "Daemon") := by
  have hsome : ∀ v : String, m.lookup "ingress.appscode.com/type" = some v → m.LBType = v := by
    intro v hv
    simp [ annotation.LBType, index_of_some m ingress.LBType v hv]
  refine ⟨hsome, ?_, by decide, hsome "Daemon"⟩
  intro hn
  simp [ annotation.LBType, index_of_none m ingress.LBType hn, LBLoadBalancer]

theorem LBType_value_or_default_witness :
    annotation.LBType [("ingress.appscode.com/type", "Daemon")] = "Daemon"
    ∧ annotation.LBType [("ingress.appscode.com/stats", "x")] = "LoadBalancer"
    ∧ annotation.LBType [("ingress.appscode.com/type", " daemon ")] = " daemon " :=
  ⟨(LBType_value_or_default [("ingress.appscode.com/type", "Daemon")]).2.2.2 (by decide),
   (LBType_value_or_default [("ingress.appscode.com/stats", "x")]).2.1 (by decide),
   (LBType_value_or_default [("ingress.appscode.com/type", " daemon ")]).1 _ (by decide)⟩

/-- C5: `StickySession` is true exactly when the key
`ingress.appscode.com/stickySession` is present, whatever its value: it is
true for the values `""` and `false`, and for the value `false` stored under
the respective key `StickySession` is true while `LoadBalancerPersist` is
false. -/
theorem StickySession_iff_present (tbl : Char → Char) (m : annotation) :
    (m.StickySession = true ↔ ∃ v, m.lookup "ingress.appscode.com/stickySession" = some v)
    ∧ (∀ v : String, m.lookup "ingress.appscode.com/stickySession" = some v →
        m.StickySession = true)
    ∧ annotation.StickySession [("ingress.appscode.com/stickySession", "")] = true
    ∧ annotation.StickySession [("ingress.appscode.com/stickySession", "false")] = true
    ∧ annotation.LoadBalancerPersist tbl
        [("ingress.appscode.com/loadbalancer.persist", "false")] = false := by
  have hsome : ∀ v : String, m.lookup "ingress.appscode.com/stickySession" = some v →
      m.StickySession = true := by
    intro v hv
    simp [ annotation.StickySession, index_of_some m ingress.stickySession v hv]
  refine ⟨⟨?_, fun ⟨v, hv⟩ => hsome v hv⟩, hsome, by decide, by decide, rfl⟩
  intro h
  cases hm : m.lookup "ingress.appscode.com/stickySession" with
  | some v => exact ⟨v, rfl⟩
  | none =>
    simp [ annotation.StickySession, index_of_none m ingress.stickySession hm] at h

theorem StickySession_iff_present_witness :
    annotation.StickySession [("ingress.appscode.com/stickySession", "false")] = true :=
  (StickySession_iff_present id [("ingress.appscode.com/stickySession", "false")]).2.1
    "false" (by decide)

/-- C6: `Stats` is true exactly when the key `ingress.appscode.com/stats` is
present, whatever value, `""` and `false` included, is stored under it. -/
theorem Stats_iff_present (m : annotation) :
    (m.Stats = true ↔ ∃ v, m.lookup "ingress.appscode.com/stats" = some v)
    ∧ (∀ v : String, m.lookup "ingress.appscode.com/stats" = some v → m.Stats = true)
    ∧ annotation.Stats [("ingress.appscode.com/stats", "")] = true
    ∧ annotation.Stats [("ingress.appscode.com/stats", "false")] = true := by
  have hsome : ∀ v : String, m.lookup "ingress.appscode.com/stats" = some v →
      m.Stats = true := by
    intro v hv
    simp [ annotation.Stats, index_of_some m ingress.StatsOn v hv]
  refine ⟨⟨?_, fun ⟨v, hv⟩ => hsome v hv⟩, hsome, by decide, by decide⟩
  intro h
  cases hm : m.lookup "ingress.appscode.com/stats" with
  | some v => exact ⟨v, rfl⟩
  | none =>
    simp [ annotation.Stats, index_of_none m ingress.StatsOn hm] at h

theorem Stats_iff_present_witness :
    annotation.Stats [("ingress.appscode.com/type", "Daemon"),
      ("ingress.appscode.com/stats", "false")] = true :=
  (Stats_iff_present [("ingress.appscode.com/type", "Daemon"),
    ("ingress.appscode.com/stats", "false")]).2.1 "false" (by decide)

/-- C7: every accessor returns a plain value on every mapping, and on a
mapping that lacks its key it returns its default: `false` for
`StickySession`, `Stats` and `LoadBalancerPersist`, `""` for `StatsUser`,
`StatsPassword`, `DaemonHostname` and `LoadBalancerIP`, and `LoadBalancer`
for `LBType`; the empty (or nil) mapping gives all eight defaults. -/
theorem accessors_default_when_absent (tbl : Char → Char) (m : annotation) :
    (m.lookup "ingress.appscode.com/stickySession" = none → m.StickySession = false)
    ∧ (m.lookup "ingress.appscode.com/stats" = none → m.Stats = false)
    ∧ (m.lookup "ingress.appscode.com/stats.user" = none → m.StatsUser = "")
    ∧ (m.lookup "ingress.appscode.com/stats.password" = none → m.StatsPassword = "")
    ∧ (m.lookup "ingress.appscode.com/type" = none → m.LBType = "LoadBalancer")
    ∧ (m.lookup "ingress.appscode.com/daemon.hostname" = none → m.DaemonHostname = "")
    ∧ (m.lookup "ingress.appscode.com/ip" = none → m.LoadBalancerIP = "")
    ∧ (m.lookup "ingress.appscode.com/loadbalancer.persist" = none →
        m.LoadBalancerPersist tbl = false)
    ∧ ( annotation.StickySession [] = false ∧ annotation.Stats [] = false
        ∧ annotation.StatsUser [] = "" ∧ annotation.StatsPassword [] = ""
        ∧ annotation.LBType [] = "LoadBalancer" ∧ annotation.DaemonHostname [] = ""
        ∧ annotation.LoadBalancerIP [] = ""
        ∧ annotation.LoadBalancerPersist tbl [] = false) := by
  refine ⟨?_, ?_, ?_, ?_, ?_, ?_, ?_, ?_, by decide, by decide, by decide, by decide,
    by decide, by decide, by decide, rfl⟩
  · intro h
    simp [ annotation.StickySession, index_of_none m ingress.stickySession h]
  · intro h
    simp [ annotation.Stats, index_of_none m ingress.StatsOn h]
  · intro h
    simp [ annotation.StatsUser, index_of_none m ingress.StatsUser h]
  · intro h
    simp [ annotation.StatsPassword, index_of_none m ingress.StatsPassword h]
  · intro h
    simp [ annotation.LBType, index_of_none m ingress.LBType h, LBLoadBalancer]
  · intro h
    simp [ annotation.DaemonHostname, index_of_none m ingress.DaemonHostname h]
  · intro h
    simp [ annotation.LoadBalancerIP, index_of_none m ingress.LoadBalancerIP h]
  · intro h
    simp only [ annotation.LoadBalancerPersist, index_of_none m ingress.LoadBalancerPersist h]
    rfl

theorem accessors_default_when_absent_witness :
    annotation.StickySession [("unrelated", "x")] = false
    ∧ annotation.Stats [("unrelated", "x")] = false
    ∧ annotation.StatsUser [("unrelated", "x")] = ""
    ∧ annotation.StatsPassword [("unrelated", "x")] = ""
    ∧ annotation.LBType [("unrelated", "x")] = "LoadBalancer"
    ∧ annotation.DaemonHostname [("unrelated", "x")] = ""
    ∧ annotation.LoadBalancerIP [("unrelated", "x")] = ""
    ∧ annotation.LoadBalancerPersist sampleTable [("unrelated", "x")] = false :=
  have h := accessors_default_when_absent sampleTable [("unrelated", "x")]
  ⟨h.1 (by decide), h.2.1 (by decide), h.2.2.1 (by decide), h.2.2.2.1 (by decide),
   h.2.2.2.2.1 (by decide), h.2.2.2.2.2.1 (by decide), h.2.2.2.2.2.2.1 (by decide),
   h.2.2.2.2.2.2.2.1 (by decide)⟩

/-- C8: the string-valued accessors `StatsUser`, `StatsPassword`,
`DaemonHostname` and `LoadBalancerIP` return exactly the value stored under
their key, for every value. -/
theorem string_accessors_pass_through (m : annotation) (v : String) :
    (m.lookup "ingress.appscode.com/stats.user" = some v → m.StatsUser = v)
    ∧ (m.lookup "ingress.appscode.com/stats.password" = some v → m.StatsPassword = v)
    ∧ (m.lookup "ingress.appscode.com/daemon.hostname" = some v → m.DaemonHostname = v)
    ∧ (m.lookup "ingress.appscode.com/ip" = some v → m.LoadBalancerIP = v) := by
  refine ⟨?_, ?_, ?_, ?_⟩
  · intro h
    simp [ annotation.StatsUser, index_of_some m ingress.StatsUser v h]
  · intro h
    simp [ annotation.StatsPassword, index_of_some m ingress.StatsPassword v h]
  · intro h
    simp [ annotation.DaemonHostname, index_of_some m ingress.DaemonHostname v h]
  · intro h
    simp [ annotation.LoadBalancerIP, index_of_some m ingress.LoadBalancerIP v h]

theorem string_accessors_pass_through_witness :
    annotation.StatsUser [("ingress.appscode.com/stats.user", " Admin \n"),
      ("ingress.appscode.com/stats.password", " Admin \n"),
      ("ingress.appscode.com/daemon.hostname", " Admin \n"),
      ("ingress.appscode.com/ip", " Admin \n")] = " Admin \n"
    ∧ annotation.StatsPassword [("ingress.appscode.com/stats.user", " Admin \n"),
      ("ingress.appscode.com/stats.password", " Admin \n"),
      ("ingress.appscode.com/daemon.hostname", " Admin \n"),
      ("ingress.appscode.com/ip", " Admin \n")] = " Admin \n"
    ∧ annotation.DaemonHostname [("ingress.appscode.com/stats.user", " Admin \n"),
      ("ingress.appscode.com/stats.password", " Admin \n"),
      ("ingress.appscode.com/daemon.hostname", " Admin \n"),
      ("ingress.appscode.com/ip", " Admin \n")] = " Admin \n"
    ∧ annotation.LoadBalancerIP [("ingress.appscode.com/stats.user", " Admin \n"),
      ("ingress.appscode.com/stats.password", " Admin \n"),
      ("ingress.appscode.com/daemon.hostname", " Admin \n"),
      ("ingress.appscode.com/ip", " Admin \n")] = " Admin \n" :=
  have h := string_accessors_pass_through
    [("ingress.appscode.com/stats.user", " Admin \n"),
      ("ingress.appscode.com/stats.password", " Admin \n"),
      ("ingress.appscode.com/daemon.hostname", " Admin \n"),
      ("ingress.appscode.com/ip", " Admin \n")] " Admin \n"
  ⟨h.1 (by decide), h.2.1 (by decide), h.2.2.1 (by decide), h.2.2.2 (by decide)⟩

/-- C9: an accessor depends on the mapping only through its own key: two
mappings that agree on the presence and value of that key give the same
result, and assigning or deleting any other key leaves the result
unchanged. -/
theorem accessors_ignore_other_keys (tbl : Char → Char) :
    (∀ m1 m2 : annotation,
      (m1.lookup "ingress.appscode.com/stickySession"
          = m2.lookup "ingress.appscode.com/stickySession" →
        m1.StickySession = m2.StickySession)
      ∧ (m1.lookup "ingress.appscode.com/stats" = m2.lookup "ingress.appscode.com/stats" →
        m1.Stats = m2.Stats)
      ∧ (m1.lookup "ingress.appscode.com/stats.user"
          = m2.lookup "ingress.appscode.com/stats.user" →
        m1.StatsUser = m2.StatsUser)
      ∧ (m1.lookup "ingress.appscode.com/stats.password"
          = m2.lookup "ingress.appscode.com/stats.password" →
        m1.StatsPassword = m2.StatsPassword)
      ∧ (m1.lookup "ingress.appscode.com/type" = m2.lookup "ingress.appscode.com/type" →
        m1.LBType = m2.LBType)
      ∧ (m1.lookup "ingress.appscode.com/daemon.hostname"
          = m2.lookup "ingress.appscode.com/daemon.hostname" →
        m1.DaemonHostname = m2.DaemonHostname)
      ∧ (m1.lookup "ingress.appscode.com/ip" = m2.lookup "ingress.appscode.com/ip" →
        m1.LoadBalancerIP = m2.LoadBalancerIP)
      ∧ (m1.lookup "ingress.appscode.com/loadbalancer.persist"
          = m2.lookup "ingress.appscode.com/loadbalancer.persist" →
        m1.LoadBalancerPersist tbl = m2.LoadBalancerPersist tbl))
    ∧ (∀ (m : annotation) (k v : String),
      (k ≠ "ingress.appscode.com/stickySession" →
        (m.assign k v).StickySession = m.StickySession
        ∧ (m.delete k).StickySession = m.StickySession)
      ∧ (k ≠ "ingress.appscode.com/stats" →
        (m.assign k v).Stats = m.Stats ∧ (m.delete k).Stats = m.Stats)
      ∧ (k ≠ "ingress.appscode.com/stats.user" →
        (m.assign k v).StatsUser = m.StatsUser ∧ (m.delete k).StatsUser = m.StatsUser)
      ∧ (k ≠ "ingress.appscode.com/stats.password" →
        (m.assign k v).StatsPassword = m.StatsPassword
        ∧ (m.delete k).StatsPassword = m.StatsPassword)
      ∧ (k ≠ "ingress.appscode.com/type" →
        (m.assign k v).LBType = m.LBType ∧ (m.delete k).LBType = m.LBType)
      ∧ (k ≠ "ingress.appscode.com/daemon.hostname" →
        (m.assign k v).DaemonHostname = m.DaemonHostname
        ∧ (m.delete k).DaemonHostname = m.DaemonHostname)
      ∧ (k ≠ "ingress.appscode.com/ip" →
        (m.assign k v).LoadBalancerIP = m.LoadBalancerIP
        ∧ (m.delete k).LoadBalancerIP = m.LoadBalancerIP)
      ∧ (k ≠ "ingress.appscode.com/loadbalancer.persist" →
        (m.assign k v).LoadBalancerPersist tbl = m.LoadBalancerPersist tbl
        ∧ (m.delete k).LoadBalancerPersist tbl = m.LoadBalancerPersist tbl)) := by
  have agree : ∀ m1 m2 : annotation,
      (m1.lookup "ingress.appscode.com/stickySession"
          = m2.lookup "ingress.appscode.com/stickySession" →
        m1.StickySession = m2.StickySession)
      ∧ (m1.lookup "ingress.appscode.com/stats" = m2.lookup "ingress.appscode.com/stats" →
        m1.Stats = m2.Stats)
      ∧ (m1.lookup "ingress.appscode.com/stats.user"
          = m2.lookup "ingress.appscode.com/stats.user" →
        m1.StatsUser = m2.StatsUser)
      ∧ (m1.lookup "ingress.appscode.com/stats.password"
          = m2.lookup "ingress.appscode.com/stats.password" →
        m1.StatsPassword = m2.StatsPassword)
      ∧ (m1.lookup "ingress.appscode.com/type" = m2.lookup "ingress.appscode.com/type" →
        m1.LBType = m2.LBType)
      ∧ (m1.lookup "ingress.appscode.com/daemon.hostname"
          = m2.lookup "ingress.appscode.com/daemon.hostname" →
        m1.DaemonHostname = m2.DaemonHostname)
      ∧ (m1.lookup "ingress.appscode.com/ip" = m2.lookup "ingress.appscode.com/ip" →
        m1.LoadBalancerIP = m2.LoadBalancerIP)
      ∧ (m1.lookup "ingress.appscode.com/loadbalancer.persist"
          = m2.lookup "ingress.appscode.com/loadbalancer.persist" →
        m1.LoadBalancerPersist tbl = m2.LoadBalancerPersist tbl) := by
    intro m1 m2
    refine ⟨?_, ?_, ?_, ?_, ?_, ?_, ?_, ?_⟩
    · intro h
      simp only [ annotation.StickySession, index_congr m1 m2 ingress.stickySession h]
    · intro h
      simp only [ annotation.Stats, index_congr m1 m2 ingress.StatsOn h]
    · intro h
      simp only [ annotation.StatsUser, index_congr m1 m2 ingress.StatsUser h]
    · intro h
      simp only [ annotation.StatsPassword, index_congr m1 m2 ingress.StatsPassword h]
    · intro h
      simp only [ annotation.LBType, index_congr m1 m2 ingress.LBType h]
    · intro h
      simp only [ annotation.DaemonHostname, index_congr m1 m2 ingress.DaemonHostname h]
    · intro h
      simp only [ annotation.LoadBalancerIP, index_congr m1 m2 ingress.LoadBalancerIP h]
    · intro h
      simp only [ annotation.LoadBalancerPersist,
        index_congr m1 m2 ingress.LoadBalancerPersist h]
  refine ⟨agree, ?_⟩
  intro m k v
  have ha := agree (m.assign k v) m
  have hd := agree (m.delete k) m
  refine ⟨?_, ?_, ?_, ?_, ?_, ?_, ?_, ?_⟩
  · intro hk
    exact ⟨ha.1 (lookup_assign_ne m _ k v hk), hd.1 (lookup_delete_ne m _ k hk)⟩
  · intro hk
    exact ⟨ha.2.1 (lookup_assign_ne m _ k v hk), hd.2.1 (lookup_delete_ne m _ k hk)⟩
  · intro hk
    exact ⟨ha.2.2.1 (lookup_assign_ne m _ k v hk), hd.2.2.1 (lookup_delete_ne m _ k hk)⟩
  · intro hk
    exact ⟨ha.2.2.2.1 (lookup_assign_ne m _ k v hk), hd.2.2.2.1 (lookup_delete_ne m _ k hk)⟩
  · intro hk
    exact ⟨ha.2.2.2.2.1 (lookup_assign_ne m _ k v hk),
      hd.2.2.2.2.1 (lookup_delete_ne m _ k hk)⟩
  · intro hk
    exact ⟨ha.2.2.2.2.2.1 (lookup_assign_ne m _ k v hk),
      hd.2.2.2.2.2.1 (lookup_delete_ne m _ k hk)⟩
  · intro hk
    exact ⟨ha.2.2.2.2.2.2.1 (lookup_assign_ne m _ k v hk),
      hd.2.2.2.2.2.2.1 (lookup_delete_ne m _ k hk)⟩
  · intro hk
    exact ⟨ha.2.2.2.2.2.2.2 (lookup_assign_ne m _ k v hk),
      hd.2.2.2.2.2.2.2 (lookup_delete_ne m _ k hk)⟩

theorem accessors_ignore_other_keys_witness :
    annotation.LBType [("x-unknown", "1"), ("ingress.appscode.com/type", "Daemon")]
      = annotation.LBType [("ingress.appscode.com/type", "Daemon"),
          ("ingress.appscode.com/stats", "")]
    ∧ annotation.Stats
        ( annotation.assign [("ingress.appscode.com/stats", "")]
          "ingress.appscode.com/type" "Daemon")
      = annotation.Stats [("ingress.appscode.com/stats", "")]
    ∧ annotation.LoadBalancerPersist sampleTable
        ( annotation.delete [("ingress.appscode.com/loadbalancer.persist", "true"),
          ("ingress.appscode.com/stats", "")] "ingress.appscode.com/stats")
      = annotation.LoadBalancerPersist sampleTable
          [("ingress.appscode.com/loadbalancer.persist", "true"),
            ("ingress.appscode.com/stats", "")] :=
  ⟨((accessors_ignore_other_keys sampleTable).1 _ _).2.2.2.2.1 (by decide),
   ((accessors_ignore_other_keys sampleTable).2 _ _ "Daemon").2.1 (by decide) |>.1,
   ((accessors_ignore_other_keys sampleTable).2 _ _ "").2.2.2.2.2.2.2 (by decide) |>.2⟩

/-! ## Theorems on the load-balancer image variable -/

theorem GetLoadbalancerImage_SetLoadbalancerImage (i : String) (g : Globals) :
    GetLoadbalancerImage (SetLoadbalancerImage i g) = i := rfl

theorem setLoadbalancerImages_append (vs : List String) (v : String) (g : Globals) :
    GetLoadbalancerImage (setLoadbalancerImages (vs ++ [v]) g) = v := by
  simp [setLoadbalancerImages, List.foldl_append, GetLoadbalancerImage_SetLoadbalancerImage]

/-- C2 (the code departs from the claim): after `SetLoadbalancerImage("a")`
and then `SetLoadbalancerImage("b")` from the initial state,
`GetLoadbalancerImage()` returns `b`, the last value and not the first, and
the second call changed the stored value. -/
theorem SetLoadbalancerImage_second_call_overwrites :
    GetLoadbalancerImage (setLoadbalancerImages ["a", "b"] initialGlobals) = "b"
    ∧ GetLoadbalancerImage (setLoadbalancerImages ["a", "b"] initialGlobals) ≠ "a"
    ∧ SetLoadbalancerImage "b" (SetLoadbalancerImage "a" initialGlobals)
        ≠ SetLoadbalancerImage "a" initialGlobals := by
  decide

/-! ## Lemmas on `strings.Index` with the separator `.` -/

theorem isPrefixOf_dot (c : Char) (cs : List Char) :
    List.isPrefixOf ['.'] (c :: cs) = ('.' == c) := by
  simp [List.isPrefixOf]

theorem indexFrom_dot_absent (l : List Char) (i : Nat) (h : '.' ∉ l) :
    indexFrom ['.'] l i = -1 := by
  induction l generalizing i with
  | nil => simp [indexFrom, List.isPrefixOf]
  | cons c cs ih =>
    have hc : ('.' == c) = false := by
      simpa using fun e : '.' = c => h (e ▸ List.mem_cons_self _ _)
    have hcs : '.' ∉ cs := fun hm => h (List.mem_cons_of_mem _ hm)
    rw [indexFrom, isPrefixOf_dot, hc]
    simpa using ih (i + 1) hcs

theorem indexFrom_dot_present (l : List Char) (i : Nat) (h : '.' ∈ l) :
    indexFrom ['.'] l i = ((i + (l.takeWhile (fun c => c != '.')).length : Nat) : Int) := by
  induction l generalizing i with
  | nil => exact absurd h (List.not_mem_nil _)
  | cons c cs ih =>
    by_cases hc : c = '.'
    · subst hc
      simp [indexFrom, List.isPrefixOf, List.takeWhile]
    · have hc1 : ('.' == c) = false := by simpa using fun e : '.' = c => hc e.symm
      have hc2 : (c != '.') = true := by simpa using hc
      have hcs : '.' ∈ cs := by
        rcases List.mem_cons.mp h with e | e
        · exact absurd e.symm hc
        · exact e
      rw [indexFrom, isPrefixOf_dot, hc1]
      simp only [Bool.false_eq_true, if_false, List.takeWhile_cons, hc2, if_true,
        List.length_cons]
      rw [ih (i + 1) hcs]
      congr 1
      omega

theorem take_length_takeWhile (p : Char → Bool) (l : List Char) :
    l.take (l.takeWhile p).length = l.takeWhile p := by
  induction l with
  | nil => rfl
  | cons c cs ih =>
    by_cases hc : p c = true
    · simp [List.takeWhile_cons, hc, ih]
    · simp [List.takeWhile_cons, hc]

theorem drop_length_takeWhile (p : Char → Bool) (l : List Char) :
    l.drop (l.takeWhile p).length = l.dropWhile p := by
  induction l with
  | nil => rfl
  | cons c cs ih =>
    by_cases hc : p c = true
    · simp [List.takeWhile_cons, List.dropWhile_cons, hc, ih]
    · simp [List.takeWhile_cons, List.dropWhile_cons, hc]

theorem takeWhile_ne_dot_of_absent (l : List Char) (h : '.' ∉ l) :
    l.takeWhile (fun c => c != '.') = l := by
  induction l with
  | nil => rfl
  | cons c cs ih =>
    have hc : (c != '.') = true := by
      simpa using fun e : c = '.' => h (e ▸ List.mem_cons_self _ _)
    have hcs : '.' ∉ cs := fun hm => h (List.mem_cons_of_mem _ hm)
    simp [List.takeWhile_cons, hc, ih hcs]

theorem stringsIndex_dot_present (s : String) (h : '.' ∈ s.data) :
    stringsIndex s "." = ((s.data.takeWhile (fun c => c != '.')).length : Int) := by
  have := indexFrom_dot_present s.data 0 h
  simpa [stringsIndex] using this

theorem stringsIndex_dot_absent (s : String) (h : '.' ∉ s.data) :
    stringsIndex s "." = -1 :=
  indexFrom_dot_absent s.data 0 h

/-- The first statement of `fullyQualifiedNodeName` computes the short name. -/
theorem truncate_eq_specShortName (n : String) :
    (if stringsIndex n "." ≥ 0 then sliceTo n (stringsIndex n ".") else n)
      = specShortName n := by
  by_cases h : '.' ∈ n.data
  · rw [stringsIndex_dot_present n h]
    simp [sliceTo, specShortName, take_length_takeWhile]
  · rw [stringsIndex_dot_absent n h]
    simp [specShortName, takeWhile_ne_dot_of_absent n.data h]

theorem fullyQualifiedNodeName_ok (ε : Type) (out n : String) :
    fullyQualifiedNodeName ({ name := out, err := none } : CmdOutput ε) n
      = if '.' ∈ (stringsTrimSpace out).data
        then (specShortName n ++ specDomainSuffix (stringsTrimSpace out), none)
        else (specShortName n, none) := by
  unfold fullyQualifiedNodeName
  simp only [truncate_eq_specShortName]
  by_cases h : '.' ∈ (stringsTrimSpace out).data
  · rw [stringsIndex_dot_present _ h]
    simp [h, sliceFrom, specDomainSuffix, drop_length_takeWhile]
  · rw [stringsIndex_dot_absent _ h]
    simp [h]

/-! ## Theorems on `fullyQualifiedNodeName` -/

/-- C3: when the command succeeds and its trimmed output `f` contains a `.`,
`fullyQualifiedNodeName(n)` returns, with a nil error, the short name of `n`
followed by the part of `f` from its first `.` on; with `n` =
`worker1.internal` and `f` = `master0.example.com` that is
`worker1.example.com`. -/
theorem fullyQualifiedNodeName_appends_domain (ε : Type) (out n : String)
    (hdot : '.' ∈ (stringsTrimSpace out).data) :
    fullyQualifiedNodeName ({ name := out, err := none } : CmdOutput ε) n
      = (specShortName n ++ specDomainSuffix (stringsTrimSpace out), none)
    ∧ (stringsTrimSpace out = "master0.example.com" →
        fullyQualifiedNodeName ({ name := out, err := none } : CmdOutput ε) "worker1.internal"
          = ("worker1.example.com", none)) := by
  refine ⟨by rw [fullyQualifiedNodeName_ok, if_pos hdot], ?_⟩
  intro hf
  have hname : specShortName "worker1.internal" ++ specDomainSuffix "master0.example.com"
      = "worker1.example.com" := by decide
  rw [fullyQualifiedNodeName_ok, if_pos hdot, hf, hname]

theorem fullyQualifiedNodeName_appends_domain_witness :
    '.' ∈ (stringsTrimSpace " master0.example.com\n").data
    ∧ fullyQualifiedNodeName
        ({ name := " master0.example.com\n", err := none } : CmdOutput String)
        "worker1.internal" = ("worker1.example.com", none) :=
  ⟨by decide,
   (fullyQualifiedNodeName_appends_domain String " master0.example.com\n" "worker1.internal"
      (by decide)).2 (by decide)⟩

/-- C10: when the command fails with error `e`, `fullyQualifiedNodeName(n)`
returns the empty string together with `e` for every node name `n` and
every captured output, so no fallback name is returned; when the command
succeeds the returned error is nil. -/
theorem fullyQualifiedNodeName_propagates_error (ε : Type) (out n : String) (e : ε) :
    fullyQualifiedNodeName { name := out, err := some e } n = ("", some e)
    ∧ (fullyQualifiedNodeName ({ name := out, err := none } : CmdOutput ε) n).2 = none := by
  refine ⟨rfl, ?_⟩
  rw [fullyQualifiedNodeName_ok]
  split <;> rfl

/-! ## Further lemmas on short names -/

theorem fullyQualifiedNodeName_eq (ε : Type) (cmd : CmdOutput ε) (n : String) :
    fullyQualifiedNodeName cmd n
      = match cmd.err with
        | some e => ("", some e)
        | none =>
          if '.' ∈ (stringsTrimSpace cmd.name).data
          then (specShortName n ++ specDomainSuffix (stringsTrimSpace cmd.name), none)
          else (specShortName n, none) := by
  obtain ⟨out, err⟩ := cmd
  cases err with
  | some e => rfl
  | none => exact fullyQualifiedNodeName_ok ε out n

theorem specShortName_no_dot (n : String) : '.' ∉ (specShortName n).data := by
  intro h
  have hp := List.mem_takeWhile_imp h
  simp at hp

theorem dropWhile_stop (p : Char → Bool) (l : List Char) :
    l.dropWhile p = [] ∨ ∃ x t, l.dropWhile p = x :: t ∧ p x = false := by
  induction l with
  | nil => exact Or.inl rfl
  | cons c cs ih =>
    by_cases hc : p c = true
    · simpa [List.dropWhile_cons, hc] using ih
    · right
      exact ⟨c, cs, by simp [List.dropWhile_cons, hc], by simpa using hc⟩

theorem takeWhile_append_stop (p : Char → Bool) (l d : List Char)
    (hd : d = [] ∨ ∃ x t, d = x :: t ∧ p x = false) :
    (l.takeWhile p ++ d).takeWhile p = l.takeWhile p := by
  have hnil : d.takeWhile p = [] := by
    rcases hd with rfl | ⟨x, t, rfl, hx⟩
    · rfl
    · simp [List.takeWhile_cons, hx]
  induction l with
  | nil => simpa using hnil
  | cons c cs ih =>
    by_cases hc : p c = true
    · simp [List.takeWhile_cons, hc, ih]
    · simpa [List.takeWhile_cons, hc] using hnil

theorem specShortName_append_suffix (n f : String) :
    specShortName (specShortName n ++ specDomainSuffix f) = specShortName n := by
  simp only [specShortName, specDomainSuffix, String.data_append]
  rw [takeWhile_append_stop _ _ _ (dropWhile_stop _ _)]

theorem specShortName_idem (n : String) :
    specShortName (specShortName n) = specShortName n := by
  have := takeWhile_append_stop (fun c => c != '.') n.data [] (Or.inl rfl)
  simp only [List.append_nil] at this
  simp only [specShortName, this]

theorem specShortName_result (ε : Type) (out n : String) :
    specShortName (fullyQualifiedNodeName ({ name := out, err := none } : CmdOutput ε) n).1
      = specShortName n := by
  rw [fullyQualifiedNodeName_ok]
  split
  · exact specShortName_append_suffix n _
  · exact specShortName_idem n

/-! ## Further theorems on `fullyQualifiedNodeName` -/

/-- C11: when the command succeeds and its trimmed output contains no `.`,
`fullyQualifiedNodeName(n)` returns just the short name of `n` with a nil
error, and the returned name contains no `.`. -/
theorem fullyQualifiedNodeName_without_domain (ε : Type) (out n : String)
    (hdot : '.' ∉ (stringsTrimSpace out).data) :
    fullyQualifiedNodeName ({ name := out, err := none } : CmdOutput ε) n
      = (specShortName n, none)
    ∧ '.' ∉ (fullyQualifiedNodeName ({ name := out, err := none } : CmdOutput ε) n).1.data := by
  have h : fullyQualifiedNodeName ({ name := out, err := none } : CmdOutput ε) n
      = (specShortName n, none) := by
    rw [fullyQualifiedNodeName_ok, if_neg hdot]
  refine ⟨h, ?_⟩
  rw [h]
  exact specShortName_no_dot n

theorem fullyQualifiedNodeName_without_domain_witness :
    '.' ∉ (stringsTrimSpace "master0\n").data
    ∧ fullyQualifiedNodeName ({ name := "master0\n", err := none } : CmdOutput String)
        "worker1.internal" = (specShortName "worker1.internal", none)
    ∧ specShortName "worker1.internal" = "worker1" :=
  ⟨by decide,
   (fullyQualifiedNodeName_without_domain String "master0\n" "worker1.internal"
      (by decide)).1,
   by decide⟩

/-- C16: for a fixed successful command output, `fullyQualifiedNodeName` is
idempotent: applied to the name it returned for `n` it returns that name
again, with a nil error. -/
theorem fullyQualifiedNodeName_idempotent (ε : Type) (out n : String) :
    (fullyQualifiedNodeName ({ name := out, err := none } : CmdOutput ε)
        (fullyQualifiedNodeName ({ name := out, err := none } : CmdOutput ε) n).1
      = fullyQualifiedNodeName ({ name := out, err := none } : CmdOutput ε) n)
    ∧ (∀ r : String,
        fullyQualifiedNodeName ({ name := out, err := none } : CmdOutput ε) n = (r, none) →
        fullyQualifiedNodeName ({ name := out, err := none } : CmdOutput ε) r = (r, none)) := by
  have main : fullyQualifiedNodeName ({ name := out, err := none } : CmdOutput ε)
        (fullyQualifiedNodeName ({ name := out, err := none } : CmdOutput ε) n).1
      = fullyQualifiedNodeName ({ name := out, err := none } : CmdOutput ε) n := by
    have hs := specShortName_result ε out n
    rw [fullyQualifiedNodeName_ok ε out
      (fullyQualifiedNodeName ({ name := out, err := none } : CmdOutput ε) n).1, hs,
      fullyQualifiedNodeName_ok ε out n]
  refine ⟨main, ?_⟩
  intro r hr
  have h := main
  rw [hr] at h
  exact h

theorem fullyQualifiedNodeName_idempotent_witness :
    fullyQualifiedNodeName ({ name := "master0.example.com\n", err := none } : CmdOutput String)
        "worker1.internal" = ("worker1.example.com", none)
    ∧ fullyQualifiedNodeName
        ({ name := "master0.example.com\n", err := none } : CmdOutput String)
        "worker1.example.com" = ("worker1.example.com", none) :=
  ⟨by decide,
   (fullyQualifiedNodeName_idempotent String "master0.example.com\n" "worker1.internal").2
     "worker1.example.com" (by decide)⟩

/-- C17: `fullyQualifiedNodeName` depends on the node name only through its
short name: two node names with the same part before the first `.` give the
same result for every outcome of the command, failure included, and on
success the part of the result before its first `.` is that short name. -/
theorem fullyQualifiedNodeName_depends_on_short_name (ε : Type) (cmd : CmdOutput ε)
    (n1 n2 : String) (h : specShortName n1 = specShortName n2) :
    fullyQualifiedNodeName cmd n1 = fullyQualifiedNodeName cmd n2
    ∧ (cmd.err = none →
        specShortName (fullyQualifiedNodeName cmd n1).1 = specShortName n1) := by
  refine ⟨by rw [fullyQualifiedNodeName_eq, fullyQualifiedNodeName_eq, h], ?_⟩
  intro he
  obtain ⟨out, err⟩ := cmd
  simp only at he
  subst he
  exact specShortName_result ε out n1

theorem fullyQualifiedNodeName_depends_on_short_name_witness :
    specShortName "worker1.internal" = specShortName "worker1.other.domain"
    ∧ fullyQualifiedNodeName
        ({ name := "master0.example.com\n", err := none } : CmdOutput String)
        "worker1.internal"
      = fullyQualifiedNodeName
        ({ name := "master0.example.com\n", err := none } : CmdOutput String)
        "worker1.other.domain"
    ∧ fullyQualifiedNodeName
        ({ name := "", err := some "exit status 1" } : CmdOutput String) "worker1.internal"
      = fullyQualifiedNodeName
        ({ name := "", err := some "exit status 1" } : CmdOutput String)
        "worker1.other.domain" :=
  ⟨by decide,
   (fullyQualifiedNodeName_depends_on_short_name String
      { name := "master0.example.com\n", err := none }
      "worker1.internal" "worker1.other.domain" (by decide)).1,
   (fullyQualifiedNodeName_depends_on_short_name String
      { name := "", err := some "exit status 1" }
      "worker1.internal" "worker1.other.domain" (by decide)).1⟩

/-! ## Lemmas on `strings.TrimSpace` -/

theorem dropWhile_append_of_all (p : Char → Bool) (pre l : List Char)
    (h : ∀ x ∈ pre, p x = true) : (pre ++ l).dropWhile p = l.dropWhile p := by
  induction pre with
  | nil => rfl
  | cons c cs ih =>
    have hc : p c = true := h c (List.mem_cons_self _ _)
    have hcs : ∀ x ∈ cs, p x = true := fun x hx => h x (List.mem_cons_of_mem _ hx)
    simp [List.dropWhile_cons, hc, ih hcs]

theorem dropWhile_of_all (p : Char → Bool) (l : List Char) (h : ∀ x ∈ l, p x = true) :
    l.dropWhile p = [] := by
  have := dropWhile_append_of_all p l [] h
  simpa using this

theorem all_of_dropWhile_nil (p : Char → Bool) (l : List Char) (h : l.dropWhile p = []) :
    ∀ x ∈ l, p x = true := by
  induction l with
  | nil => intro x hx; exact absurd hx (List.not_mem_nil _)
  | cons c cs ih =>
    by_cases hc : p c = true
    · simp only [List.dropWhile_cons, hc, if_true] at h
      intro x hx
      rcases List.mem_cons.mp hx with e | e
      · rw [e]; exact hc
      · exact ih h x e
    · simp [List.dropWhile_cons, hc] at h

theorem dropWhile_append_of_ne_nil (p : Char → Bool) (l post : List Char)
    (h : l.dropWhile p ≠ []) : (l ++ post).dropWhile p = l.dropWhile p ++ post := by
  induction l with
  | nil => exact absurd rfl h
  | cons c cs ih =>
    by_cases hc : p c = true
    · simp only [List.dropWhile_cons, hc, if_true] at h
      simp [List.dropWhile_cons, hc, ih h]
    · simp [List.dropWhile_cons, hc]

theorem stringsTrimSpace_padded (pre post : List Char) (core : String)
    (hpre : ∀ c ∈ pre, unicodeIsSpace c = true)
    (hpost : ∀ c ∈ post, unicodeIsSpace c = true) :
    stringsTrimSpace (String.mk (pre ++ core.data ++ post)) = stringsTrimSpace core := by
  unfold stringsTrimSpace
  congr 2
  simp only [List.append_assoc]
  rw [dropWhile_append_of_all _ pre _ hpre]
  by_cases hcore : core.data.dropWhile unicodeIsSpace = []
  · have hall : ∀ x ∈ core.data ++ post, unicodeIsSpace x = true := by
      intro x hx
      rcases List.mem_append.mp hx with e | e
      · exact all_of_dropWhile_nil _ _ hcore x e
      · exact hpost x e
    rw [dropWhile_of_all _ _ hall, hcore]
  · rw [dropWhile_append_of_ne_nil _ _ post hcore, List.reverse_append]
    exact dropWhile_append_of_all _ post.reverse _
      (fun x hx => hpost x (List.mem_reverse.mp hx))

theorem dropWhile_of_head_stop (p : Char → Bool) (l : List Char)
    (h : ∀ c, l.head? = some c → p c = false) : l.dropWhile p = l := by
  cases l with
  | nil => rfl
  | cons c cs =>
    have hc : p c = false := h c rfl
    simp [List.dropWhile_cons, hc]

theorem stringsTrimSpace_of_trimmed (core : String)
    (hhead : ∀ c, core.data.head? = some c → unicodeIsSpace c = false)
    (hlast : ∀ c, core.data.getLast? = some c → unicodeIsSpace c = false) :
    stringsTrimSpace core = core := by
  have hrev : ∀ c, core.data.reverse.head? = some c → unicodeIsSpace c = false := by
    intro c hc
    rw [List.head?_reverse] at hc
    exact hlast c hc
  unfold stringsTrimSpace
  rw [dropWhile_of_head_stop _ core.data hhead, dropWhile_of_head_stop _ _ hrev,
    List.reverse_reverse]

/-- C18: `fullyQualifiedNodeName` strips the white space around the command
output before using it: raw outputs that are equal after trimming give equal
results; white space added around an output changes nothing; for an output
made of white space `pre`, a text `core` that neither starts nor ends with
white space, and white space `post`, the result is computed from `core`
alone, namely the short name of `n` followed by the part of `core` from its
first `.` on (the short name alone when `core` has no `.`); and the raw
output `master0.example.com` followed by a newline gives, for the node name
`worker1.internal`, the name `worker1.example.com` without a newline. -/
theorem fullyQualifiedNodeName_trims_output (ε : Type) (n o1 o2 : String)
    (h : stringsTrimSpace o1 = stringsTrimSpace o2) :
    fullyQualifiedNodeName ({ name := o1, err := none } : CmdOutput ε) n
      = fullyQualifiedNodeName ({ name := o2, err := none } : CmdOutput ε) n
    ∧ (∀ pre post : List Char,
        (∀ c ∈ pre, unicodeIsSpace c = true) → (∀ c ∈ post, unicodeIsSpace c = true) →
        fullyQualifiedNodeName
            ({ name := String.mk (pre ++ o1.data ++ post), err := none } : CmdOutput ε) n
          = fullyQualifiedNodeName ({ name := o1, err := none } : CmdOutput ε) n)
    ∧ (∀ (pre post : List Char) (core : String),
        (∀ c ∈ pre, unicodeIsSpace c = true) → (∀ c ∈ post, unicodeIsSpace c = true) →
        (∀ c, core.data.head? = some c → unicodeIsSpace c = false) →
        (∀ c, core.data.getLast? = some c → unicodeIsSpace c = false) →
        fullyQualifiedNodeName
            ({ name := String.mk (pre ++ core.data ++ post), err := none } : CmdOutput ε) n
          = if '.' ∈ core.data
            then (specShortName n ++ specDomainSuffix core, none)
            else (specShortName n, none))
    ∧ fullyQualifiedNodeName
          ({ name := "master0.example.com\n", err := none } : CmdOutput ε) "worker1.internal"
        = ("worker1.example.com", none) := by
  refine ⟨?_, ?_, ?_, ?_⟩
  · rw [fullyQualifiedNodeName_ok, fullyQualifiedNodeName_ok, h]
  · intro pre post hpre hpost
    rw [fullyQualifiedNodeName_ok, fullyQualifiedNodeName_ok,
      stringsTrimSpace_padded pre post o1 hpre hpost]
  · intro pre post core hpre hpost hhead hlast
    rw [fullyQualifiedNodeName_ok, stringsTrimSpace_padded pre post core hpre hpost,
      stringsTrimSpace_of_trimmed core hhead hlast]
  · have htrim : stringsTrimSpace "master0.example.com\n" = "master0.example.com" := by decide
    have hdot : '.' ∈ ("master0.example.com" : String).data := by decide
    have hname : specShortName "worker1.internal" ++ specDomainSuffix "master0.example.com"
        = "worker1.example.com" := by decide
    rw [fullyQualifiedNodeName_ok, htrim, if_pos hdot, hname]

theorem fullyQualifiedNodeName_trims_output_witness :
    stringsTrimSpace "\t master0.example.com \r\n" = stringsTrimSpace "master0.example.com"
    ∧ fullyQualifiedNodeName
        ({ name := "\t master0.example.com \r\n", err := none } : CmdOutput String)
        "worker1.internal"
      = fullyQualifiedNodeName
        ({ name := "master0.example.com", err := none } : CmdOutput String)
        "worker1.internal"
    ∧ fullyQualifiedNodeName
        ({ name := String.mk (['\t', ' '] ++ ("foo.bar.baz" : String).data ++ [' ', '\r', '\n']),
           err := none } : CmdOutput String) "w.internal"
      = (if '.' ∈ ("foo.bar.baz" : String).data
          then (specShortName "w.internal" ++ specDomainSuffix "foo.bar.baz", none)
          else (specShortName "w.internal", none))
    ∧ specShortName "w.internal" ++ specDomainSuffix "foo.bar.baz" = "w.bar.baz" :=
  ⟨by decide,
   (fullyQualifiedNodeName_trims_output String "worker1.internal"
      "\t master0.example.com \r\n" "master0.example.com" (by decide)).1,
   (fullyQualifiedNodeName_trims_output String "w.internal"
      "\t master0.example.com \r\n" "master0.example.com" (by decide)).2.2.1
      ['\t', ' '] [' ', '\r', '\n'] "foo.bar.baz" (by decide) (by decide) (by decide)
      (by decide),
   by decide⟩

/-! ## Further theorems on the load-balancer image variable -/

theorem runSchedule_gets (k : Nat) (g : Globals) :
    runSchedule (List.replicate k Call.get) g
      = (g, List.replicate k (GetLoadbalancerImage g)) := by
  induction k with
  | zero => rfl
  | succ k ih =>
    simp [List.replicate_succ, runSchedule, Call.run, ih]

/-- C12: in the initial state `GetLoadbalancerImage()` returns the empty
string, any number of `Get` calls made before a `Set` all return the empty
string and leave the state unchanged, and in every state `Get` and `Set`
complete with a plain result, there being no error result to return. -/
theorem GetLoadbalancerImage_initially_empty :
    GetLoadbalancerImage initialGlobals = ""
    ∧ (∀ k : Nat, runSchedule (List.replicate k Call.get) initialGlobals
        = (initialGlobals, List.replicate k ""))
    ∧ (∀ g : Globals, Call.run Call.get g = (g, some g.loadbalancerImage))
    ∧ (∀ (v : String) (g : Globals),
        Call.run (Call.set v) g = (SetLoadbalancerImage v g, none)) := by
  refine ⟨rfl, ?_, fun _ => rfl, fun _ _ => rfl⟩
  intro k
  rw [runSchedule_gets]
  rfl

/-- C14 (the code departs from the claim): with the two writers scheduled one
after the other, in either order, both writes take effect and the later one
wins; a `Get` between the two writes and a `Get` after them observe different
values; every `Set` call stores its argument whatever happened before, its
`sync.Once` being local to the call. -/
theorem racing_setters_both_take_effect :
    runSchedule [Call.set "x", Call.set "y", Call.get, Call.get] initialGlobals
      = ({ loadbalancerImage := "y" }, ["y", "y"])
    ∧ writesInEffect [Call.set "x", Call.set "y", Call.get, Call.get] initialGlobals = 2
    ∧ runSchedule [Call.set "y", Call.set "x", Call.get, Call.get] initialGlobals
      = ({ loadbalancerImage := "x" }, ["x", "x"])
    ∧ writesInEffect [Call.set "y", Call.set "x", Call.get, Call.get] initialGlobals = 2
    ∧ (runSchedule [Call.set "x", Call.get, Call.set "y", Call.get] initialGlobals).2
      = ["x", "y"]
    ∧ (∀ (v : String) (g : Globals),
        SetLoadbalancerImage v g = { loadbalancerImage := v }) := by
  refine ⟨by decide, by decide, by decide, by decide, by decide, fun _ _ => rfl⟩

/-! ## Further theorems on the constants and the accessors -/

/-- C15: the exported constants have their documented values: `StatPort` is
1936, the prefixes are `lb-svc-`, `lb-c-`, `lb-dm-` and `lb-cm-`, the default
mode is `LoadBalancer`, which is what `LBType` returns on the empty mapping,
and the daemon mode is `Daemon`. -/
theorem exported_constants_values :
    StatPort = 1936
    ∧ ServicePrefix = "lb-svc-"
    ∧ ControllerPrefix = "lb-c-"
    ∧ DaemonSetPrefix = "lb-dm-"
    ∧ ConfigMapPrefix = "lb-cm-"
    ∧ LBLoadBalancer = "LoadBalancer"
    ∧ LBDaemon = "Daemon"
    ∧ annotation.LBType [] = LBLoadBalancer := by
  decide

theorem lookup_single_ne (key k v : String) (h : k ≠ key) :
    List.lookup key [(k, v)] = none := by
  have hk : (key == k) = false := by simpa using fun e : key = k => h e.symm
  simp [List.lookup_cons, hk]

/-- C13: every accessor reads exactly its documented key: its result is a
function of the value looked up under that literal key, and a mapping whose
only key is any other string, a differently-cased spelling included, gives
the result of the absent key. -/
theorem accessors_read_their_exact_key (tbl : Char → Char) :
    (∀ m : annotation,
      m.StickySession = (m.lookup "ingress.appscode.com/stickySession").isSome
      ∧ m.Stats = (m.lookup "ingress.appscode.com/stats").isSome
      ∧ m.StatsUser = (m.lookup "ingress.appscode.com/stats.user").getD ""
      ∧ m.StatsPassword = (m.lookup "ingress.appscode.com/stats.password").getD ""
      ∧ m.LBType = (m.lookup "ingress.appscode.com/type").getD "LoadBalancer"
      ∧ m.DaemonHostname = (m.lookup "ingress.appscode.com/daemon.hostname").getD ""
      ∧ m.LoadBalancerIP = (m.lookup "ingress.appscode.com/ip").getD ""
      ∧ m.LoadBalancerPersist tbl
          = (stringsToLower tbl
              ((m.lookup "ingress.appscode.com/loadbalancer.persist").getD "") == "true"))
    ∧ (∀ k v : String,
      (k ≠ "ingress.appscode.com/stickySession" →
        annotation.StickySession [(k, v)] = false)
      ∧ (k ≠ "ingress.appscode.com/stats" → annotation.Stats [(k, v)] = false)
      ∧ (k ≠ "ingress.appscode.com/stats.user" → annotation.StatsUser [(k, v)] = "")
      ∧ (k ≠ "ingress.appscode.com/stats.password" →
        annotation.StatsPassword [(k, v)] = "")
      ∧ (k ≠ "ingress.appscode.com/type" → annotation.LBType [(k, v)] = "LoadBalancer")
      ∧ (k ≠ "ingress.appscode.com/daemon.hostname" →
        annotation.DaemonHostname [(k, v)] = "")
      ∧ (k ≠ "ingress.appscode.com/ip" → annotation.LoadBalancerIP [(k, v)] = "")
      ∧ (k ≠ "ingress.appscode.com/loadbalancer.persist" →
        annotation.LoadBalancerPersist tbl [(k, v)] = false)) := by
  have main : ∀ m : annotation,
      m.StickySession = (m.lookup "ingress.appscode.com/stickySession").isSome
      ∧ m.Stats = (m.lookup "ingress.appscode.com/stats").isSome
      ∧ m.StatsUser = (m.lookup "ingress.appscode.com/stats.user").getD ""
      ∧ m.StatsPassword = (m.lookup "ingress.appscode.com/stats.password").getD ""
      ∧ m.LBType = (m.lookup "ingress.appscode.com/type").getD "LoadBalancer"
      ∧ m.DaemonHostname = (m.lookup "ingress.appscode.com/daemon.hostname").getD ""
      ∧ m.LoadBalancerIP = (m.lookup "ingress.appscode.com/ip").getD ""
      ∧ m.LoadBalancerPersist tbl
          = (stringsToLower tbl
              ((m.lookup "ingress.appscode.com/loadbalancer.persist").getD "") == "true") := by
    intro m
    refine ⟨?_, ?_, ?_, ?_, ?_, ?_, ?_, ?_⟩
    · cases h : m.lookup "ingress.appscode.com/stickySession" with
      | none => simp [ annotation.StickySession, index_of_none m ingress.stickySession h]
      | some w => simp [ annotation.StickySession, index_of_some m ingress.stickySession w h]
    · cases h : m.lookup "ingress.appscode.com/stats" with
      | none => simp [ annotation.Stats, index_of_none m ingress.StatsOn h]
      | some w => simp [ annotation.Stats, index_of_some m ingress.StatsOn w h]
    · cases h : m.lookup "ingress.appscode.com/stats.user" with
      | none => simp [ annotation.StatsUser, index_of_none m ingress.StatsUser h]
      | some w => simp [ annotation.StatsUser, index_of_some m ingress.StatsUser w h]
    · cases h : m.lookup "ingress.appscode.com/stats.password" with
      | none => simp [ annotation.StatsPassword, index_of_none m ingress.StatsPassword h]
      | some w => simp [ annotation.StatsPassword, index_of_some m ingress.StatsPassword w h]
    · cases h : m.lookup "ingress.appscode.com/type" with
      | none => simp [ annotation.LBType, index_of_none m ingress.LBType h, LBLoadBalancer]
      | some w => simp [ annotation.LBType, index_of_some m ingress.LBType w h]
    · cases h : m.lookup "ingress.appscode.com/daemon.hostname" with
      | none => simp [ annotation.DaemonHostname, index_of_none m ingress.DaemonHostname h]
      | some w => simp [ annotation.DaemonHostname, index_of_some m ingress.DaemonHostname w h]
    · cases h : m.lookup "ingress.appscode.com/ip" with
      | none => simp [ annotation.LoadBalancerIP, index_of_none m ingress.LoadBalancerIP h]
      | some w => simp [ annotation.LoadBalancerIP, index_of_some m ingress.LoadBalancerIP w h]
    · cases h : m.lookup "ingress.appscode.com/loadbalancer.persist" with
      | none =>
        simp only [ annotation.LoadBalancerPersist,
          index_of_none m ingress.LoadBalancerPersist h, Option.getD_none]
      | some w =>
        simp only [ annotation.LoadBalancerPersist,
          index_of_some m ingress.LoadBalancerPersist w h, Option.getD_some]
  refine ⟨main, ?_⟩
  intro k v
  have hm := main [(k, v)]
  refine ⟨?_, ?_, ?_, ?_, ?_, ?_, ?_, ?_⟩
  · intro hk
    rw [hm.1, lookup_single_ne _ k v hk]; rfl
  · intro hk
    rw [hm.2.1, lookup_single_ne _ k v hk]; rfl
  · intro hk
    rw [hm.2.2.1, lookup_single_ne _ k v hk]; rfl
  · intro hk
    rw [hm.2.2.2.1, lookup_single_ne _ k v hk]; rfl
  · intro hk
    rw [hm.2.2.2.2.1, lookup_single_ne _ k v hk]; rfl
  · intro hk
    rw [hm.2.2.2.2.2.1, lookup_single_ne _ k v hk]; rfl
  · intro hk
    rw [hm.2.2.2.2.2.2.1, lookup_single_ne _ k v hk]; rfl
  · intro hk
    rw [hm.2.2.2.2.2.2.2, lookup_single_ne _ k v hk]; rfl

theorem accessors_read_their_exact_key_witness :
    annotation.StickySession [("ingress.appscode.com/stickysession", "true")] = false
    ∧ annotation.LBType [("INGRESS.APPSCODE.COM/TYPE", "Daemon")] = "LoadBalancer"
    ∧ annotation.LoadBalancerPersist sampleTable
        [("ingress.appscode.com/LoadBalancer.Persist", "true")] = false :=
  ⟨((accessors_read_their_exact_key sampleTable).2
      "ingress.appscode.com/stickysession" "true").1 (by decide),
   ((accessors_read_their_exact_key sampleTable).2
      "INGRESS.APPSCODE.COM/TYPE" "Daemon").2.2.2.2.1 (by decide),
   ((accessors_read_their_exact_key sampleTable).2
      "ingress.appscode.com/LoadBalancer.Persist" "true").2.2.2.2.2.2.2 (by decide)⟩

/-- C19: `LBType` does not validate the mode: the mapping that stores the empty
string under `ingress.appscode.com/type` has the key and yields a value that
is neither `Daemon` nor `LoadBalancer`, as does the value `daemon`; a present
key with the empty value yields the empty string, not the default; and the
result is `LoadBalancer` only when the key is absent or that very value is
stored. -/
theorem LBType_no_validation :
    (∃ m : annotation, (∃ v, m.lookup "ingress.appscode.com/type" = some v)
      ∧ m.LBType ≠ "Daemon" ∧ m.LBType ≠ "LoadBalancer")
    ∧ annotation.LBType [("ingress.appscode.com/type", "")] = ""
    ∧ annotation.LBType [("ingress.appscode.com/type", "daemon")] = "daemon"
    ∧ (∀ m : annotation, m.lookup "ingress.appscode.com/type" = some "" →
        m.LBType = "" ∧ m.LBType ≠ "LoadBalancer" ∧ m.LBType ≠ "Daemon")
    ∧ (∀ m : annotation, m.LBType = "LoadBalancer" ↔
        (m.lookup "ingress.appscode.com/type" = none
          ∨ m.lookup "ingress.appscode.com/type" = some "LoadBalancer")) := by
  refine ⟨⟨[("ingress.appscode.com/type", "")], ⟨"", by decide⟩, by decide, by decide⟩,
    by decide, by decide, ?_, ?_⟩
  · intro m h
    have e : m.LBType = "" := by
      simp [ annotation.LBType, index_of_some m ingress.LBType "" h]
    rw [e]
    exact ⟨rfl, by decide, by decide⟩
  · intro m
    cases h : m.lookup "ingress.appscode.com/type" with
    | none =>
      simp [ annotation.LBType, index_of_none m ingress.LBType h, LBLoadBalancer]
    | some w =>
      simp [ annotation.LBType, index_of_some m ingress.LBType w h]

theorem LBType_no_validation_witness :
    annotation.LBType [("ingress.appscode.com/stats", "x"), ("ingress.appscode.com/type", "")]
      = ""
    ∧ annotation.LBType [("ingress.appscode.com/type", "LoadBalancer")] = "LoadBalancer" :=
  ⟨(LBType_no_validation.2.2.2.1
      [("ingress.appscode.com/stats", "x"), ("ingress.appscode.com/type", "")]
      (by decide)).1,
   (LBType_no_validation.2.2.2.2 [("ingress.appscode.com/type", "LoadBalancer")]).mpr
     (Or.inr (by decide))⟩

end ingress
